import Mathlib

/-!
# Verification of the BalloonMap normalization pipeline (server/index.js)

This file gives a shallow embedding of the server's pure core — `flatten`,
`findByKeys`, `latLonFromGeo`, `toMs`, `normalizeTuple`, `normalizeObject`,
`explodeBodyToRecords`, `dedup`, `fetchWindborne24h`, `enrich`, the warm
cycle and the `/api/data` handler — and proves or refutes the frozen claims
about it.

Modelling conventions:
* JavaScript values reaching the pipeline are JSON-decoded data, modelled by
  the inductive `JVal` (JSON cannot encode `NaN`/`Infinity`/`undefined`, so
  numbers are finite rationals; `undefined` arising from failed lookups is
  modelled by `Option JVal` with `none`).
* External/built-in behaviour that the repository does not define is passed
  in as explicit function parameters, universally quantified in theorems:
  `coerce` for JavaScript string/array/object to-number coercion (the cases
  of unary `+` not fixed below), `dateParse` for `Date.parse(String(x))`,
  `jsonParse` for `JSON.parse`, `windFetch`/`airFetch` for the two
  enrichment HTTP services, and a list of per-bucket settled outcomes for
  the 24 concurrent bucket retrievals (`Promise.allSettled`).
* JavaScript number-to-string conversion (used only in the dedup key, in
  `String(id)` and in zero-padded hour ids) is modelled by `numToStr`,
  which agrees with JavaScript on integers and is injective.
* The derived `isoTime` presentation string of a point is omitted: it is a
  pure function of `ts` and no claim mentions it.
-/

set_option maxHeartbeats 1000000

/-- JSON-like JavaScript values: the data flowing through the pipeline. -/
inductive JVal where
  | null : JVal
  | bool (b : Bool) : JVal
  | num (q : ℚ) : JVal
  | str (s : String) : JVal
  | arr (xs : List JVal) : JVal
  | obj (kvs : List (String × JVal)) : JVal

/-- `true` exactly on the JavaScript `null` value. -/
def JVal.isNull : JVal → Bool
  | .null => true
  | _ => false

/-- JavaScript truthiness of a `JVal`. -/
def jsTruthy : JVal → Bool
  | .null => false
  | .bool b => b
  | .num q => q != 0
  | .str s => s != ""
  | .arr _ => true
  | .obj _ => true

/-- Decimal digit character, for `d < 10`. -/
def digitCh (d : Nat) : Char := Char.ofNat (48 + d)

/-- Fuelled decimal rendering of a natural number (most significant first). -/
def natChars : Nat → Nat → List Char
  | 0, _ => []
  | f + 1, n => if n < 10 then [digitCh n] else natChars f (n / 10) ++ [digitCh (n % 10)]

/-- Decimal rendering of a natural number, as JavaScript renders it. -/
def natStr (n : Nat) : String := ⟨natChars (n + 1) n⟩

/-- Decimal rendering of an integer, as JavaScript renders it. -/
def intChars : Int → List Char
  | .ofNat n => natChars (n + 1) n
  | .negSucc n => '-' :: natChars (n + 2) (n + 1)

/-- Decimal rendering of an integer, as JavaScript renders it. -/
def intStr (i : Int) : String := ⟨intChars i⟩

/-- Stand-in for JavaScript number-to-string conversion on the model's
rational numbers: agrees with JavaScript on integers (the only values the
claims pin down) and is injective, which is all the dedup key needs. -/
def numToStr (q : ℚ) : String :=
  if q.den = 1 then intStr q.num else intStr q.num ++ "/" ++ natStr q.den

/-- `String.prototype.padStart(2, '0')`. -/
def padStart2 (s : String) : String :=
  if s.length < 2 then ⟨List.replicate (2 - s.length) '0' ++ s.data⟩ else s

/-- ASCII lower-casing of a character (model of `toLowerCase` on the ASCII
keys the pipeline compares). -/
def lowerCh (c : Char) : Char :=
  if 'A' ≤ c && c ≤ 'Z' then Char.ofNat (c.toNat + 32) else c

/-- ASCII lower-casing of a string. -/
def asciiLower (s : String) : String := ⟨s.data.map lowerCh⟩

/-- JavaScript whitespace for `trim` (ASCII whitespace and NBSP). -/
def isWsp (c : Char) : Bool :=
  c == ' ' || c == '\t' || c == '\n' || c == '\r' || c.toNat == 11 || c.toNat == 12 ||
    c.toNat == 160

/-- `String.prototype.trim()`. -/
def jsTrim (s : String) : String :=
  ⟨((s.data.dropWhile isWsp).reverse.dropWhile isWsp).reverse⟩

/-- JavaScript `ToNumber` on a `JVal`: the language-fixed cases (`null`,
booleans, numbers) are hard-coded — in particular `+null = 0` — and the
remaining cases (strings, arrays, objects) are delegated to the `coerce`
parameter, over which all theorems quantify. `none` stands for `NaN`. -/
def jsNum (coerce : JVal → Option ℚ) : JVal → Option ℚ
  | .null => some 0
  | .bool b => some (if b then 1 else 0)
  | .num q => some q
  | v => coerce v

/-- `ToNumber` applied to a possibly-`undefined` value: `+undefined = NaN`. -/
def jsNumOpt (coerce : JVal → Option ℚ) : Option JVal → Option ℚ
  | none => none
  | some v => jsNum coerce v

/-- `ToNumber` applied to a value-or-`null` as returned by `findByKeys`:
`+null = 0`, the coercion at the heart of `normalizeObject`'s
latitude/longitude handling. -/
def jsNumNull (coerce : JVal → Option ℚ) : Option JVal → Option ℚ
  | none => some 0
  | some v => jsNum coerce v

mutual

/-- JavaScript `String(v)` on a `JVal` (number rendering via `numToStr`). -/
def jsStr : JVal → String
  | .null => "null"
  | .bool b => if b then "true" else "false"
  | .num q => numToStr q
  | .str s => s
  | .arr xs => jsStrArr xs
  | .obj _ => "[object Object]"

/-- `Array.prototype.toString`: elements joined by `,`, `null` rendering
empty. -/
def jsStrArr : List JVal → String
  | [] => ""
  | [.null] => ""
  | [x] => jsStr x
  | .null :: rest => "," ++ jsStrArr rest
  | x :: rest => jsStr x ++ "," ++ jsStrArr rest

end

/-- Key joining from the flattener's template literal:
`` `${prefix}${prefix ? '.' : ''}${k}` ``. -/
def joinKey (pfx seg : String) : String := if pfx = "" then seg else pfx ++ "." ++ seg

/-- JavaScript object property write `out[k] = v` on the flat-map model: an
existing key keeps its position and has its value overwritten, a new key is
appended (JS object insertion order). -/
def setKey (out : List (String × JVal)) (k : String) (v : JVal) : List (String × JVal) :=
  if out.any (fun p => p.1 = k) then out.map (fun p => if p.1 = k then (k, v) else p)
  else out ++ [(k, v)]

/-- JavaScript object property read `out[k]`: `none` is `undefined`. -/
def getKey (out : List (String × JVal)) (k : String) : Option JVal :=
  (out.find? (fun p => p.1 == k)).map (fun p => p.2)

mutual

/-- `flatten(obj, prefix, out)` from server/index.js: `null` (and
`undefined`) leaves are dropped by the `obj == null` early return, arrays
and objects recurse with extended keys, and any other scalar is written at
the accumulated key. -/
def flatten (v : JVal) (pfx : String) (out : List (String × JVal)) : List (String × JVal) :=
  match v with
  | .null => out
  | .arr xs => flattenArr xs 0 pfx out
  | .obj kvs => flattenObj kvs pfx out
  | v => setKey out pfx v

/-- The `obj.forEach((v, i) => flatten(v, key(prefix, i), out))` loop. -/
def flattenArr (xs : List JVal) (i : Nat) (pfx : String) (out : List (String × JVal)) :
    List (String × JVal) :=
  match xs with
  | [] => out
  | x :: rest => flattenArr rest (i + 1) pfx (flatten x (joinKey pfx (natStr i)) out)

/-- The `for (const [k, v] of Object.entries(obj)) flatten(v, key(prefix, k), out)`
loop. -/
def flattenObj (kvs : List (String × JVal)) (pfx : String) (out : List (String × JVal)) :
    List (String × JVal) :=
  match kvs with
  | [] => out
  | (k, x) :: rest => flattenObj rest pfx (flatten x (joinKey pfx k) out)

end

/-- The `KEY_CANDIDATES` table: candidate keys for `id`. -/
def idKeys : List String :=
  ["id", "balloon_id", "balloonId", "name", "serial", "imei", "device", "callsign"]

/-- The `KEY_CANDIDATES` table: candidate keys for `time`. -/
def timeKeys : List String :=
  ["t", "ts", "timestamp", "time", "datetime", "date", "observed", "recordedAt"]

/-- The `KEY_CANDIDATES` table: candidate keys for `lat`. -/
def latKeys : List String :=
  ["lat", "latitude", "position.lat", "pos.lat", "coords.lat", "location.lat"]

/-- The `KEY_CANDIDATES` table: candidate keys for `lon`. -/
def lonKeys : List String :=
  ["lon", "lng", "longitude", "position.lon", "pos.lon", "coords.lon", "location.lon"]

/-- The `KEY_CANDIDATES` table: candidate keys for `alt`. -/
def altKeys : List String := ["alt", "altitude", "elev", "elevation", "height"]

/-- Strip a JavaScript `null` from an optional value (`x ?? _` trigger). -/
def notNull : Option JVal → Option JVal
  | some .null => none
  | some v => some v
  | none => none

/-- `findByKeys(flat, keys)`: for each candidate in order, first an exact
lookup (skipping `null`/missing), then a case-insensitive scan of all flat
keys (`hit && flat[hit] != null`: an empty-string hit is falsy and skipped);
returns the JS `null` (`none`) when no candidate resolves. -/
def findByKeys (flat : List (String × JVal)) : List String → Option JVal
  | [] => none
  | k :: rest =>
    match notNull (getKey flat k) with
    | some v => some v
    | none =>
      match flat.find? (fun p => asciiLower p.1 == asciiLower k) with
      | some (kk, v) =>
        if kk ≠ "" && !v.isNull then some v else findByKeys flat rest
      | none => findByKeys flat rest

/-- First-of chain `a ?? b` on JS-nullable values. -/
def nnOr (a b : Option JVal) : Option JVal :=
  match notNull a with
  | some v => some v
  | none => b

/-- The generic candidate keys scanned by `latLonFromGeo`. -/
def geoCandKeys : List String :=
  ["coord", "coords", "coordinate", "coordinates", "position", "pos", "location"]

/-- The head test of `latLonFromGeo`: if the `??`-chain value is an array of
length ≥ 2 whose first two entries coerce to (finite) numbers, read it in
GeoJSON `[lon, lat]` order. -/
def geoHead (coerce : JVal → Option ℚ) (g : Option JVal) : Option (ℚ × ℚ) :=
  match g with
  | some (.arr xs) =>
    if 2 ≤ xs.length then
      match jsNumOpt coerce (xs.get? 0), jsNumOpt coerce (xs.get? 1) with
      | some a, some b => some (b, a)
      | _, _ => none
    else none
  | _ => none

/-- One iteration of the generic-candidate loop in `latLonFromGeo`: the
array test with the magnitude disambiguation, then the comma-string test.
`none` means fall through to the next candidate. -/
def geoCand (coerce : JVal → Option ℚ) (v : Option JVal) : Option (ℚ × ℚ) :=
  match v with
  | some (.arr xs) =>
    if 2 ≤ xs.length then
      match jsNumOpt coerce (xs.get? 0), jsNumOpt coerce (xs.get? 1) with
      | some a, some b =>
        if |a| ≤ 90 ∧ |b| ≤ 180 then some (a, b)
        else if |b| ≤ 90 ∧ |a| ≤ 180 then some (b, a)
        else none
      | _, _ => none
    else none
  | some (.str s) =>
    if s.contains ',' then
      let parts := s.split (fun c => c == ',')
      match jsNumOpt coerce ((parts.get? 0).map (fun t => .str (jsTrim t))),
          jsNumOpt coerce ((parts.get? 1).map (fun t => .str (jsTrim t))) with
      | some a, some b => if |a| ≤ 90 then some (a, b) else some (b, a)
      | _, _ => none
    else none
  | _ => none

/-- The `for (const c of cands)` loop of `latLonFromGeo`. -/
def geoScan (coerce : JVal → Option ℚ) (flat : List (String × JVal)) :
    List String → Option (ℚ × ℚ)
  | [] => none
  | c :: rest =>
    match geoCand coerce (getKey flat c) with
    | some r => some r
    | none => geoScan coerce flat rest

/-- `latLonFromGeo(flat)`: the `geometry.coordinates` / `geom.coordinates`
/ `coordinates` chain first, then the generic candidate scan; yields
`(lat, lon)`. -/
def latLonFromGeo (coerce : JVal → Option ℚ) (flat : List (String × JVal)) :
    Option (ℚ × ℚ) :=
  match
    geoHead coerce
      (nnOr (getKey flat "geometry.coordinates")
        (nnOr (getKey flat "geom.coordinates") (getKey flat "coordinates"))) with
  | some r => some r
  | none => geoScan coerce flat geoCandKeys

/-- `toMs(tsLike)`: `null`/`undefined` is `NaN`; a value coercing to a
finite number below `1e12` is seconds, at or above it milliseconds; any
other value falls back to `Date.parse(String(tsLike))`, modelled by the
`dateParse` parameter. `none` stands for `NaN`. -/
def toMs (coerce : JVal → Option ℚ) (dateParse : JVal → Option ℚ)
    (tsLike : Option JVal) : Option ℚ :=
  match tsLike with
  | none => none
  | some v =>
    match jsNum coerce v with
    | some n => some (if n < 10 ^ 12 then n * 1000 else n)
    | none => dateParse v

/-- The canonical point record emitted by the normalizers (the derived
`iso` presentation string is omitted, see the file header). `alt = none`
models the JS `null` altitude; `wind`/`air` are absent (`none`) until
enrichment attaches them (`some JVal.null` models an attached `null`). -/
structure Point where
  id : String
  ts : ℚ
  lat : ℚ
  lon : ℚ
  alt : Option ℚ
  wind : Option JVal := none
  air : Option JVal := none

/-- `normalizeTuple(rec, hour, idx)`: tuple-form records `[lat, lon, alt?]`
with synthesized id `<2-digit hour>-<idx>` and timestamp
`now - hour*3600*1000`. -/
def normalizeTuple (coerce : JVal → Option ℚ) (now : ℚ) (rec : JVal)
    (hour idx : Nat) : Option Point :=
  match rec with
  | .arr xs =>
    if xs.length < 2 then none
    else
      match jsNumOpt coerce (xs.get? 0), jsNumOpt coerce (xs.get? 1) with
      | some lat, some lon =>
        if 90 < |lat| ∨ 180 < |lon| then none
        else
          some
            { id := padStart2 (natStr hour) ++ "-" ++ natStr idx,
              ts := now - hour * 3600 * 1000, lat := lat, lon := lon,
              alt := jsNumOpt coerce (xs.get? 2) }
      | _, _ => none
  | _ => none

/-- Word character for the `\b` boundaries of the time-key regex. -/
def isWordChar (c : Char) : Bool := c.isAlpha || c.isDigit || c == '_'

/-- Match of the word `w` at position `i` of `cs` with `\b` boundaries on
both sides. -/
def wordMatchAt (cs : List Char) (i : Nat) (w : List Char) : Bool :=
  ((List.range w.length).all (fun j => cs.get? (i + j) == w.get? j)) &&
    (match i with
     | 0 => true
     | i' + 1 => !isWordChar ((cs.get? i').getD ' ')) &&
    !isWordChar ((cs.get? (i + w.length)).getD ' ')

/-- The regex test `/\b(time|timestamp|ts|datetime)\b/i` on a key. -/
def hasTimeWord (k : String) : Bool :=
  let cs := (asciiLower k).data
  ["time", "timestamp", "ts", "datetime"].any (fun w =>
    (List.range (cs.length + 1)).any (fun i => wordMatchAt cs i w.data))

/-- `normalizeObject(rec)` from server/index.js, translated branch by
branch; note `let lat = +findByKeys(flat, KEY_CANDIDATES.lat)` goes through
`jsNumNull`, so an unresolved candidate (JS `null`) coerces to `0`. -/
def normalizeObject (coerce : JVal → Option ℚ) (dateParse : JVal → Option ℚ)
    (rec : JVal) : Option Point :=
  match rec with
  | .arr _ | .obj _ =>
    let flat := flatten rec "" []
    match
      (match findByKeys flat idKeys with
       | some v => some v
       | none => getKey flat "__key") with
    | none => none
    | some .null => none
    | some idval =>
      let ts1 :=
        match toMs coerce dateParse (findByKeys flat timeKeys) with
        | some t => some t
        | none =>
          toMs coerce dateParse ((flat.find? (fun p => hasTimeWord p.1)).map (fun p => p.2))
      match ts1 with
      | none => none
      | some ts =>
        let lat0 := jsNumNull coerce (findByKeys flat latKeys)
        let lon0 := jsNumNull coerce (findByKeys flat lonKeys)
        let lalo : Option ℚ × Option ℚ :=
          if lat0.isSome && lon0.isSome then (lat0, lon0)
          else
            match latLonFromGeo coerce flat with
            | some g => (some g.1, some g.2)
            | none => (lat0, lon0)
        match lalo.1, lalo.2 with
        | some lat, some lon =>
          if 90 < |lat| ∨ 180 < |lon| then none
          else
            some
              { id := jsStr idval, ts := ts, lat := lat, lon := lon,
                alt := jsNumNull coerce (findByKeys flat altKeys) }
        | _, _ => none
  | _ => none

/-- `safeJSON(any)`: strings are JSON-decoded (a decode failure yields the
JS `null`), anything else passes through. `jsonParse` models `JSON.parse`. -/
def safeJSON (jsonParse : String → Option JVal) : JVal → JVal
  | .str s => (jsonParse s).getD .null
  | v => v

/-- The wrapper keys probed by `explodeBodyToRecords`. -/
def arrKeyList : List String := ["data", "items", "records", "points", "rows"]

/-- Object property read on a `JVal`, `undefined` off objects. -/
def objGetJ (v : JVal) (k : String) : Option JVal :=
  match v with
  | .obj kvs => getKey kvs k
  | _ => none

/-- `['data','items','records','points','rows'].find(k => Array.isArray(parsed[k]))`,
returning the found array. -/
def findArrVal (kvs : List (String × JVal)) : List String → Option (List JVal)
  | [] => none
  | k :: rest =>
    match getKey kvs k with
    | some (.arr xs) => some xs
    | _ => findArrVal kvs rest

/-- The own enumerable properties contributed by `...v` in an object
literal: object fields, array and string index properties, nothing for
other primitives. -/
def spreadFields : JVal → List (String × JVal)
  | .obj kvs => kvs
  | .arr xs => xs.enum.map (fun p => (natStr p.1, p.2))
  | .str s => s.data.enum.map (fun p => (natStr p.1, .str ⟨[p.2]⟩))
  | _ => []

/-- The record injection `{ __key: k, ...v }` (later spread entries
overwrite, keeping first position, per JS object-literal semantics). -/
def mkSpread (k : String) (v : JVal) : JVal :=
  .obj ((spreadFields v).foldl (fun o p => setKey o p.1 p.2) [("__key", .str k)])

/-- The decoded form `safeJSON(body) ?? body` that `explodeBodyToRecords`
dispatches on. -/
def decodedForm (jsonParse : String → Option JVal) (body : JVal) : JVal :=
  match safeJSON jsonParse body with
  | .null => body
  | v => v

/-- `explodeBodyToRecords(body)` from server/index.js. -/
def explodeBodyToRecords (jsonParse : String → Option JVal) (body : JVal) : List JVal :=
  match decodedForm jsonParse body with
  | .arr xs => xs.filter (fun r => !r.isNull)
  | .obj kvs =>
    match findArrVal kvs arrKeyList with
    | some xs => xs.filter (fun r => !r.isNull)
    | none =>
      (kvs.map (fun p =>
        match p.2 with
        | .arr items =>
          items.map (fun item =>
            mkSpread p.1
              (match safeJSON jsonParse item with
               | .null => item
               | w => w))
        | .obj _ => [mkSpread p.1 p.2]
        | _ => [])).flatten
  | _ =>
    match body with
    | .str s =>
      let lines := ((s.split (fun c => c == '\n')).map jsTrim).filter (fun t => t ≠ "")
      if 1 < lines.length then
        lines.filterMap (fun line =>
          let p := (jsonParse line).getD .null
          if jsTruthy p then some p else none)
      else []
    | _ => []

/-- The dedup key `` `${p.id}:${p.ts}` ``. -/
def dedupKey (p : Point) : String := p.id ++ ":" ++ numToStr p.ts

/-- The `seen`-set pass of `dedup`: first occurrence of each key wins. -/
def dedupCore : List Point → List String → List Point
  | [], _ => []
  | p :: ps, seen =>
    if seen.contains (dedupKey p) then dedupCore ps seen
    else p :: dedupCore ps (dedupKey p :: seen)

/-- `dedup(points)`: drop later key-duplicates, then the stable ascending
sort `out.sort((a, b) => a.ts - b.ts)` (ES2019 `Array.prototype.sort` is
stable), modelled by `List.mergeSort`. -/
def dedup (points : List Point) : List Point :=
  (dedupCore points []).mergeSort (fun a b => decide (a.ts ≤ b.ts))

/-- The debug counters reported by `fetchWindborne24h(true)`. -/
structure DebugInfo where
  files_ok : Nat
  files_failed : Nat
  raw_records : Nat
  normalized : Nat
  unique_points : Nat

/-- Accumulator of the `for (let i = 0; i < results.length; i++)` loop. -/
structure FetchAcc where
  ok : Nat
  bad : Nat
  raw : Nat
  pts : List Point

/-- The per-bucket dispatch: explode the body, then — when the first
extracted record is itself an array — normalize the whole batch as tuples
(hour = bucket index, idx = position), otherwise as objects. -/
def bucketItems (coerce : JVal → Option ℚ) (jsonParse : String → Option JVal)
    (dateParse : JVal → Option ℚ) (now : ℚ) (i : Nat) (body : JVal) :
    Nat × List Point :=
  let items := explodeBodyToRecords jsonParse body
  let pts :=
    match items with
    | .arr _ :: _ => items.enum.filterMap (fun p => normalizeTuple coerce now p.2 i p.1)
    | _ => items.filterMap (normalizeObject coerce dateParse)
  (items.length, pts)

/-- The settled-results loop of `fetchWindborne24h`: a rejected bucket only
bumps `bad` and is skipped (`continue`), a fulfilled one is exploded and
normalized. -/
def fetchLoop (coerce : JVal → Option ℚ) (jsonParse : String → Option JVal)
    (dateParse : JVal → Option ℚ) (now : ℚ) :
    List (Option JVal) → Nat → FetchAcc → FetchAcc
  | [], _, acc => acc
  | r :: rest, i, acc =>
    match r with
    | none => fetchLoop coerce jsonParse dateParse now rest (i + 1)
        { acc with bad := acc.bad + 1 }
    | some body =>
      let ip := bucketItems coerce jsonParse dateParse now i body
      fetchLoop coerce jsonParse dateParse now rest (i + 1)
        { ok := acc.ok + 1, bad := acc.bad, raw := acc.raw + ip.1,
          pts := acc.pts ++ ip.2 }

/-- `fetchWindborne24h(debug)`: the 24 concurrent bucket retrievals settle
to the `results` list (`Promise.allSettled`; `none` is a rejected bucket),
every outcome is processed by `fetchLoop`, and the deduplicated points are
returned — with the debug counters when `debug` is set. -/
def fetchWindborne24h (coerce : JVal → Option ℚ) (jsonParse : String → Option JVal)
    (dateParse : JVal → Option ℚ) (now : ℚ) (results : List (Option JVal))
    (debug : Bool) : Option DebugInfo × List Point :=
  let acc := fetchLoop coerce jsonParse dateParse now results 0 ⟨0, 0, 0, []⟩
  let deduped := dedup acc.pts
  if debug then
    (some
      { files_ok := acc.ok, files_failed := acc.bad, raw_records := acc.raw,
        normalized := deduped.length, unique_points := deduped.length },
      deduped)
  else (none, deduped)

/-- `withWind(p)`: attach `wind = data?.current ?? null`, or `wind = null`
when the wind service call (modelled by `windFetch` on the point's
coordinates) fails. -/
def withWind (windFetch : ℚ → ℚ → Option JVal) (p : Point) : Point :=
  match windFetch p.lat p.lon with
  | none => { p with wind := some .null }
  | some data => { p with wind := some ((objGetJ data "current").getD .null) }

/-- Index `?.[0]` on a `JVal`. -/
def jvIndex0 : JVal → Option JVal
  | .arr xs => xs.get? 0
  | .obj kvs => getKey kvs "0"
  | .str s => (s.data.get? 0).map (fun c => .str ⟨[c]⟩)
  | _ => none

/-- The `x.parameter === 'pm25'` test. -/
def pm25Pred (x : JVal) : Bool :=
  match objGetJ x "parameter" with
  | some (.str s) => s == "pm25"
  | _ => false

/-- `withAir(p)`: attach the nearest pm25 measurement payload, or
`air = null` when the service call fails, the response chain
`data?.results?.[0]?.measurements?.find(...)` comes up empty or falsy, or
`.find` is called on a non-array (a `TypeError` swallowed by the `catch`). -/
def withAir (airFetch : ℚ → ℚ → Option JVal) (p : Point) : Point :=
  match airFetch p.lat p.lon with
  | none => { p with air := some .null }
  | some data =>
    let m : Option JVal :=
      ((objGetJ data "results").bind jvIndex0).bind (fun r =>
        match objGetJ r "measurements" with
        | some (.arr xs) => xs.find? pm25Pred
        | _ => none)
    match m with
    | some x =>
      if jsTruthy x then
        { p with
          air := some (.obj
            [("pm25", (objGetJ x "value").getD .null),
             ("unit", (objGetJ x "unit").getD .null),
             ("lastUpdated", (objGetJ x "lastUpdated").getD .null)]) }
      else { p with air := some .null }
    | none => { p with air := some .null }

/-- The per-point enrichment `withAir(await withWind(p))`. -/
def enrichStep (windFetch airFetch : ℚ → ℚ → Option JVal) (p : Point) : Point :=
  withAir airFetch (withWind windFetch p)

/-- `enrich(points)`: batches of 25 processed in order (`slice`,
`Promise.all` within the batch, `out.push(...enriched)`). -/
def enrich (windFetch airFetch : ℚ → ℚ → Option JVal) (points : List Point) :
    List Point :=
  match points with
  | [] => []
  | p :: rest =>
    ((p :: rest).take 25).map (enrichStep windFetch airFetch) ++
      enrich windFetch airFetch ((p :: rest).drop 25)
termination_by points.length
decreasing_by simp [List.length_drop]; omega

/-- The module-level cache cell `{ time, points }` (initially
`{ time: 0, points: null }`). -/
structure Cache where
  time : ℚ
  points : Option (List Point)

/-- `CACHE_MS`. -/
def CACHE_MS : ℚ := 5 * 60 * 1000

/-- The warm cycle `warm()`: fetch, optionally enrich, then replace the
cache cell by a single assignment; the surrounding `try/catch` leaves the
cell untouched when either awaited step rejects. The two steps are modelled
by `Except` outcomes so that failing runs are in the domain. -/
def warm (enableEnrich : Bool) (now : ℚ) (fetchRes : Except Unit (List Point))
    (enrichRes : List Point → Except Unit (List Point)) (c : Cache) : Cache :=
  match fetchRes with
  | .error _ => c
  | .ok basePoints =>
    if enableEnrich then
      match enrichRes basePoints with
      | .error _ => c
      | .ok pts => { time := now, points := some pts }
    else { time := now, points := some basePoints }

/-- The JSON body answered by `/api/data` (error path omitted; the handler
fields `debug` and `enriched` are only present on the debug path). -/
structure DataResponse where
  cached : Bool
  points : List Point
  dbg : Option DebugInfo
  enriched : Option Bool

/-- The `/api/data` handler: query flags, the cache-serve gate
`!wantDebug && !noEnrich && ENABLE_ENRICH && cache.points && fresh`, the
fetch/enrich path, and the conditional cache write; returns the response
together with the cache cell after the request. -/
def getData (enableEnrich : Bool) (now : ℚ) (coerce : JVal → Option ℚ)
    (jsonParse : String → Option JVal) (dateParse : JVal → Option ℚ)
    (results : List (Option JVal)) (windFetch airFetch : ℚ → ℚ → Option JVal)
    (debugQ noenrichQ : Option String) (c : Cache) : DataResponse × Cache :=
  let wantDebug := (debugQ.getD "") == "1"
  let noEnrich := (noenrichQ.getD "") == "1"
  if !wantDebug && !noEnrich && enableEnrich && c.points.isSome &&
      decide (now - c.time < CACHE_MS) then
    ({ cached := true, points := c.points.getD [], dbg := none, enriched := none }, c)
  else
    let r := fetchWindborne24h coerce jsonParse dateParse now results wantDebug
    let finalPoints :=
      if !noEnrich && enableEnrich then enrich windFetch airFetch r.2 else r.2
    let c2 : Cache :=
      if !wantDebug && !noEnrich && enableEnrich then
        { time := now, points := some finalPoints }
      else c
    if wantDebug then
      ({ cached := false, points := finalPoints, dbg := r.1,
         enriched := some (!noEnrich && enableEnrich) }, c2)
    else ({ cached := false, points := finalPoints, dbg := none, enriched := none }, c2)

/-- Key presence in a flat mapping. -/
def hasKey (out : List (String × JVal)) (k : String) : Bool :=
  out.any (fun p => p.1 == k)

/-- The flat key obtained by joining path segments onto a starting prefix,
exactly as the flattener accumulates it. -/
def keyOf (pfx : String) (segs : List String) : String := segs.foldl joinKey pfx

/-- `LeafAt v segs s`: the value `v` contains the non-`null` scalar `s` at
the access path `segs` (object field names and array index strings). -/
inductive LeafAt : JVal → List String → JVal → Prop where
  | scalarBool (b : Bool) : LeafAt (.bool b) [] (.bool b)
  | scalarNum (q : ℚ) : LeafAt (.num q) [] (.num q)
  | scalarStr (s : String) : LeafAt (.str s) [] (.str s)
  | inArr {xs : List JVal} {i : Nat} {x : JVal} {segs : List String} {s : JVal} :
      xs.get? i = some x → LeafAt x segs s → LeafAt (.arr xs) (natStr i :: segs) s
  | inObj {kvs : List (String × JVal)} {k : String} {x : JVal} {segs : List String}
      {s : JVal} :
      (k, x) ∈ kvs → LeafAt x segs s → LeafAt (.obj kvs) (k :: segs) s

/-- The rejection condition of `normalizeTuple` as the specification words
it: the input is not a sequence, is shorter than 2, or its first two
elements do not parse as finite numbers within latitude/longitude bounds. -/
def tupleRejectSpec (coerce : JVal → Option ℚ) (rec : JVal) : Prop :=
  ∀ xs, rec = .arr xs →
    xs.length < 2 ∨
      ¬∃ la lo, jsNumOpt coerce (xs.get? 0) = some la ∧
        jsNumOpt coerce (xs.get? 1) = some lo ∧ |la| ≤ 90 ∧ |lo| ≤ 180

/-- Decimal value of a digit string (retraction of `natChars`). -/
def valChars (cs : List Char) : Nat :=
  cs.foldl (fun a c => a * 10 + (c.toNat - 48)) 0

/-- The points a single settled bucket outcome contributes: none for a
rejected bucket, the explode-and-normalize output for a fulfilled one. -/
def bucketOutcome (coerce : JVal → Option ℚ) (jsonParse : String → Option JVal)
    (dateParse : JVal → Option ℚ) (now : ℚ) (p : Nat × Option JVal) : List Point :=
  match p.2 with
  | none => []
  | some body => (bucketItems coerce jsonParse dateParse now p.1 body).2

/-- C5: `normalizeTuple` rejects (returns the JS `null`) exactly when the
input is not a sequence, has length < 2, or its first two elements do not
parse as finite numbers with `|lat| ≤ 90` and `|lon| ≤ 180`; otherwise it
emits a point whose id is the two-digit zero-padded source hour joined by
`-` to the index, whose timestamp is `now - hour*3600000` ms, and whose
altitude is the third element when it parses as a finite number and absent
otherwise. -/
theorem normalizeTuple_spec (coerce : JVal → Option ℚ) (now : ℚ) (rec : JVal)
    (hour idx : Nat) :
    (normalizeTuple coerce now rec hour idx = none ↔ tupleRejectSpec coerce rec) ∧
    (∀ xs la lo, rec = .arr xs → 2 ≤ xs.length →
      jsNumOpt coerce (xs.get? 0) = some la → jsNumOpt coerce (xs.get? 1) = some lo →
      |la| ≤ 90 → |lo| ≤ 180 →
      normalizeTuple coerce now rec hour idx =
        some { id := padStart2 (natStr hour) ++ "-" ++ natStr idx,
               ts := now - hour * 3600000, lat := la, lon := lo,
               alt := jsNumOpt coerce (xs.get? 2) }) := by
  constructor
  · cases rec with
    | arr xs =>
      simp only [normalizeTuple, tupleRejectSpec, JVal.arr.injEq, forall_eq']
      by_cases hlen : xs.length < 2
      · simp [hlen]
      · rw [if_neg hlen]
        constructor
        · intro hnone
          right
          rintro ⟨la, lo, c0, c1, b0, b1⟩
          rw [c0, c1] at hnone
          simp only [] at hnone
          rw [if_neg (by push_neg; exact ⟨b0, b1⟩)] at hnone
          exact Option.noConfusion hnone
        · intro h
          rcases h with h | h
          · exact absurd h hlen
          · cases h0 : jsNumOpt coerce (xs.get? 0) with
            | none =>
              cases h1 : jsNumOpt coerce (xs.get? 1) with
              | none => rfl
              | some lo => rfl
            | some la =>
              cases h1 : jsNumOpt coerce (xs.get? 1) with
              | none => rfl
              | some lo =>
                have hb : 90 < |la| ∨ 180 < |lo| := by
                  by_contra hc
                  push_neg at hc
                  exact h ⟨la, lo, h0, h1, hc.1, hc.2⟩
                show (if 90 < |la| ∨ 180 < |lo| then none else
                  some ({ id := padStart2 (natStr hour) ++ "-" ++ natStr idx,
                          ts := now - hour * 3600 * 1000, lat := la, lon := lo,
                          alt := jsNumOpt coerce (xs.get? 2) } : Point)) = none
                rw [if_pos hb]
    | null => simp [normalizeTuple, tupleRejectSpec]
    | bool b => simp [normalizeTuple, tupleRejectSpec]
    | num q => simp [normalizeTuple, tupleRejectSpec]
    | str s => simp [normalizeTuple, tupleRejectSpec]
    | obj kvs => simp [normalizeTuple, tupleRejectSpec]
  · intro xs la lo hrec hlen h0 h1 hla hlo
    subst hrec
    simp only [normalizeTuple]
    rw [if_neg (by omega), h0, h1]
    show (if 90 < |la| ∨ 180 < |lo| then none else
      some ({ id := padStart2 (natStr hour) ++ "-" ++ natStr idx,
              ts := now - hour * 3600 * 1000, lat := la, lon := lo,
              alt := jsNumOpt coerce (xs.get? 2) } : Point)) =
      some ({ id := padStart2 (natStr hour) ++ "-" ++ natStr idx,
              ts := now - hour * 3600000, lat := la, lon := lo,
              alt := jsNumOpt coerce (xs.get? 2) } : Point)
    rw [if_neg (by push_neg; exact ⟨hla, hlo⟩)]
    have harith : now - (hour : ℚ) * 3600 * 1000 = now - hour * 3600000 := by ring
    rw [harith]

/-- Witness for C5: the end-to-end example `[10.5, -20.3, 1500]` in bucket
hour 3 at index 0 (with a clock at 0). -/
theorem normalizeTuple_spec_witness :
    normalizeTuple (fun _ => none) 0 (.arr [.num 10.5, .num (-20.3), .num 1500]) 3 0 =
      some { id := "03-0", ts := -10800000, lat := 10.5, lon := -20.3,
             alt := some 1500 } := by
  have h := (normalizeTuple_spec (fun _ => none) 0
      (.arr [.num 10.5, .num (-20.3), .num 1500]) 3 0).2
    [.num 10.5, .num (-20.3), .num 1500] 10.5 (-20.3) rfl (by norm_num) rfl rfl
    (by rw [abs_of_pos (by norm_num)]; norm_num)
    (by rw [abs_of_neg (by norm_num)]; norm_num)
  rw [h]
  norm_num [Point.mk.injEq]
  decide

/-- C1 (failing-input evaluation): for an object record whose id and
timestamp resolve but in which no latitude/longitude candidate key resolves
and geometry resolution yields nothing, `normalizeObject` does not reject:
`findByKeys` returns the JS `null`, unary `+` coerces it to `0`, the
geometry fallback is skipped because `0` is finite, and a point at
latitude 0, longitude 0 (and altitude 0, by the same coercion) is emitted —
for every behaviour of the string/date coercions. -/
theorem normalizeObject_missing_coords_emits_origin
    (coerce dateParse : JVal → Option ℚ) :
    normalizeObject coerce dateParse (.obj [("id", .str "a"), ("t", .num 5)]) =
      some { id := "a", ts := 5000, lat := 0, lon := 0, alt := some 0 } ∧
    findByKeys (flatten (.obj [("id", .str "a"), ("t", .num 5)]) "" []) latKeys = none ∧
    findByKeys (flatten (.obj [("id", .str "a"), ("t", .num 5)]) "" []) lonKeys = none ∧
    latLonFromGeo coerce (flatten (.obj [("id", .str "a"), ("t", .num 5)]) "" []) =
      none := by
  refine ⟨?_, rfl, rfl, rfl⟩
  have h : (5 : ℚ) * 1000 = 5000 := by norm_num
  rw [← h]
  rfl

/-- C2 (failing-input evaluation): a record whose only coordinates are a
GeoJSON `geometry:{coordinates:[10, 50]}` member does not yield
latitude 50 / longitude 10. `flatten` destructures the array into the keys
`geometry.coordinates.0` and `geometry.coordinates.1`, so
`latLonFromGeo`'s lookup of `geometry.coordinates` sees nothing and the
resolver returns `null`; `normalizeObject` (id and timestamp resolving)
never even consults it — `+null = 0` makes both coordinates finite — and
emits the point at latitude 0, longitude 0. -/
theorem normalizeObject_geometry_fallback_dead (coerce dateParse : JVal → Option ℚ) :
    flatten (.obj [("geometry", .obj [("coordinates", .arr [.num 10, .num 50])])]) "" [] =
      [("geometry.coordinates.0", .num 10), ("geometry.coordinates.1", .num 50)] ∧
    latLonFromGeo coerce
      (flatten (.obj [("geometry", .obj [("coordinates", .arr [.num 10, .num 50])])]) "" []) =
      none ∧
    normalizeObject coerce dateParse
      (.obj [("id", .str "a"), ("t", .num 5),
        ("geometry", .obj [("coordinates", .arr [.num 10, .num 50])])]) =
      some { id := "a", ts := 5000, lat := 0, lon := 0, alt := some 0 } := by
  refine ⟨rfl, rfl, ?_⟩
  have h : (5 : ℚ) * 1000 = 5000 := by norm_num
  rw [← h]
  rfl

/-- C7: `explodeBodyToRecords` is a total function of its input (it is
defined by structural dispatch, never raising), and any input whose decoded
form is neither a sequence nor a mapping, and which is not a string body
with more than one nonblank line, yields the empty record list. -/
theorem explode_empty_on_mismatch (jsonParse : String → Option JVal) (body : JVal)
    (harr : ∀ xs, decodedForm jsonParse body ≠ .arr xs)
    (hobj : ∀ kvs, decodedForm jsonParse body ≠ .obj kvs)
    (hlines : ∀ s, body = .str s →
      (((s.split (fun c => c == '\n')).map jsTrim).filter (fun t => t ≠ "")).length ≤ 1) :
    explodeBodyToRecords jsonParse body = [] := by
  unfold explodeBodyToRecords
  cases hd : decodedForm jsonParse body with
  | arr xs => exact absurd hd (harr xs)
  | obj kvs => exact absurd hd (hobj kvs)
  | null =>
    cases body
    case str s => exact if_neg (Nat.not_lt.mpr (hlines s rfl))
    all_goals rfl
  | bool b =>
    cases body
    case str s => exact if_neg (Nat.not_lt.mpr (hlines s rfl))
    all_goals rfl
  | num q =>
    cases body
    case str s => exact if_neg (Nat.not_lt.mpr (hlines s rfl))
    all_goals rfl
  | str t =>
    cases body
    case str s => exact if_neg (Nat.not_lt.mpr (hlines s rfl))
    all_goals rfl

/-- Witness for C7: a bare number body (undecodable as a record container)
explodes to no records. -/
theorem explode_empty_on_mismatch_witness :
    explodeBodyToRecords (fun _ => none) (.num 7) = [] :=
  explode_empty_on_mismatch (fun _ => none) (.num 7)
    (fun _ h => JVal.noConfusion h) (fun _ h => JVal.noConfusion h)
    (fun _ h => JVal.noConfusion h)

/-- C9: a warm cycle is atomic with respect to the cache cell: if the fetch
step or (when enrichment is enabled) the enrich step rejects, the previous
cache entry is returned untouched (both fields), and otherwise the entry is
replaced as a whole by a freshly-built `{ time, points }` record — the cell
never mixes old and new fields. -/
theorem warm_atomic (enableEnrich : Bool) (now : ℚ)
    (fetchRes : Except Unit (List Point))
    (enrichRes : List Point → Except Unit (List Point)) (c : Cache) :
    ((fetchRes = .error () ∨
        (enableEnrich = true ∧ ∀ b, fetchRes = .ok b → enrichRes b = .error ())) →
      warm enableEnrich now fetchRes enrichRes c = c) ∧
    (warm enableEnrich now fetchRes enrichRes c = c ∨
      ∃ pts, warm enableEnrich now fetchRes enrichRes c =
        { time := now, points := some pts }) := by
  constructor
  · intro h
    cases fetchRes with
    | error e => rfl
    | ok base =>
      rcases h with h | ⟨he, hall⟩
      · exact absurd h (by simp)
      · have := hall base rfl
        simp [warm, he, this]
  · cases fetchRes with
    | error e => exact Or.inl rfl
    | ok base =>
      cases henr : enableEnrich with
      | false => exact Or.inr ⟨base, by simp [warm]⟩
      | true =>
        cases her : enrichRes base with
        | error e => exact Or.inl (by simp [warm, her])
        | ok pts => exact Or.inr ⟨pts, by simp [warm, her]⟩

/-- Witness for C9: a failing fetch leaves the initial cache cell
unchanged. -/
theorem warm_atomic_witness :
    warm true 5 (.error ()) (fun b => .ok b) { time := 0, points := none } =
      { time := 0, points := none } :=
  (warm_atomic true 5 (.error ()) (fun b => .ok b) { time := 0, points := none }).1
    (Or.inl rfl)

/-- C10: the `/api/data` handler serves from the cache only when enrichment
is enabled and the request sets neither the debug nor the skip-enrichment
flag; under any other combination the cache cell is left unchanged; and
with enrichment disabled every request performs a full fresh fetch (the
response is the unenriched fetch result, never marked cached, and the cell
is not written) — while the warm cycle keeps writing fresh whole entries
into the cell even with enrichment disabled. -/
theorem getData_cache_policy (enableEnrich : Bool) (now : ℚ)
    (coerce : JVal → Option ℚ) (jsonParse : String → Option JVal)
    (dateParse : JVal → Option ℚ) (results : List (Option JVal))
    (windFetch airFetch : ℚ → ℚ → Option JVal) (debugQ noenrichQ : Option String)
    (c : Cache) :
    ((getData enableEnrich now coerce jsonParse dateParse results windFetch airFetch
        debugQ noenrichQ c).1.cached = true →
      enableEnrich = true ∧ debugQ.getD "" ≠ "1" ∧ noenrichQ.getD "" ≠ "1") ∧
    (¬(enableEnrich = true ∧ debugQ.getD "" ≠ "1" ∧ noenrichQ.getD "" ≠ "1") →
      (getData enableEnrich now coerce jsonParse dateParse results windFetch airFetch
        debugQ noenrichQ c).2 = c) ∧
    (enableEnrich = false →
      (getData enableEnrich now coerce jsonParse dateParse results windFetch airFetch
          debugQ noenrichQ c).1.cached = false ∧
      (getData enableEnrich now coerce jsonParse dateParse results windFetch airFetch
          debugQ noenrichQ c).2 = c ∧
      (getData enableEnrich now coerce jsonParse dateParse results windFetch airFetch
          debugQ noenrichQ c).1.points =
        (fetchWindborne24h coerce jsonParse dateParse now results
          (debugQ.getD "" == "1")).2) ∧
    (∀ basePoints enrichRes,
      warm false now (.ok basePoints) enrichRes c =
        { time := now, points := some basePoints }) := by
  refine ⟨?_, ?_, ?_, fun basePoints enrichRes => rfl⟩
  · intro hc
    by_cases h1 : debugQ.getD "" = "1"
    · exfalso
      have hb1 : (debugQ.getD "" == "1") = true := by simpa using h1
      simp [getData, hb1] at hc
    · by_cases h2 : noenrichQ.getD "" = "1"
      · exfalso
        have hb1 : (debugQ.getD "" == "1") = false := by simpa using h1
        have hb2 : (noenrichQ.getD "" == "1") = true := by simpa using h2
        simp [getData, hb1, hb2] at hc
      · by_cases h3 : enableEnrich = true
        · exact ⟨h3, h1, h2⟩
        · exfalso
          have he : enableEnrich = false := by
            rcases Bool.eq_false_or_eq_true enableEnrich with h | h
            exacts [absurd h h3, h]
          have hb1 : (debugQ.getD "" == "1") = false := by simpa using h1
          have hb2 : (noenrichQ.getD "" == "1") = false := by simpa using h2
          simp [getData, hb1, hb2, he] at hc
  · intro hno
    by_cases h1 : debugQ.getD "" = "1"
    · have hb1 : (debugQ.getD "" == "1") = true := by simpa using h1
      simp [getData, hb1]
    · by_cases h2 : noenrichQ.getD "" = "1"
      · have hb1 : (debugQ.getD "" == "1") = false := by simpa using h1
        have hb2 : (noenrichQ.getD "" == "1") = true := by simpa using h2
        simp [getData, hb1, hb2]
      · have h3 : enableEnrich = false := by
          rcases Bool.eq_false_or_eq_true enableEnrich with h | h
          exacts [absurd ⟨h, h1, h2⟩ hno, h]
        have hb1 : (debugQ.getD "" == "1") = false := by simpa using h1
        have hb2 : (noenrichQ.getD "" == "1") = false := by simpa using h2
        simp [getData, hb1, hb2, h3]
  · intro hee
    subst hee
    by_cases h1 : debugQ.getD "" = "1"
    · have hb1 : (debugQ.getD "" == "1") = true := by simpa using h1
      simp [getData, hb1]
    · have hb1 : (debugQ.getD "" == "1") = false := by simpa using h1
      simp [getData, hb1]

/-- Witness for C10: with enrichment disabled and no cache entry, a plain
request is served fresh and leaves the cache cell unchanged. -/
theorem getData_cache_policy_witness :
    (getData false 0 (fun _ => none) (fun _ => none) (fun _ => none) []
        (fun _ _ => none) (fun _ _ => none) none none
        { time := 0, points := none }).1.cached = false :=
  ((getData_cache_policy false 0 (fun _ => none) (fun _ => none) (fun _ => none) []
      (fun _ _ => none) (fun _ _ => none) none none
      { time := 0, points := none }).2.2.1 rfl).1

/-- The batched loop of `enrich` computes the same list as a plain map of
the per-point step. -/
theorem enrich_eq_map (windFetch airFetch : ℚ → ℚ → Option JVal) (l : List Point) :
    enrich windFetch airFetch l = l.map (enrichStep windFetch airFetch) := by
  have key : ∀ n (l : List Point), l.length ≤ n →
      enrich windFetch airFetch l = l.map (enrichStep windFetch airFetch) := by
    intro n
    induction n with
    | zero =>
      intro l hl
      have hnil : l = [] := List.length_eq_zero.mp (Nat.le_zero.mp hl)
      subst hnil
      simp [enrich]
    | succ n ih =>
      intro l hl
      match l with
      | [] => simp [enrich]
      | p :: rest =>
        rw [enrich]
        rw [ih ((p :: rest).drop 25) (by simp only [List.length_drop]; simp at hl ⊢; omega)]
        rw [← List.map_append, List.take_append_drop]
  exact key l.length l le_rfl

/-- `withWind` only attaches the `wind` field. -/
theorem withWind_base (windFetch : ℚ → ℚ → Option JVal) (p : Point) :
    (withWind windFetch p).id = p.id ∧ (withWind windFetch p).ts = p.ts ∧
    (withWind windFetch p).lat = p.lat ∧ (withWind windFetch p).lon = p.lon ∧
    (withWind windFetch p).alt = p.alt ∧ (withWind windFetch p).air = p.air := by
  unfold withWind
  cases windFetch p.lat p.lon <;> simp

/-- The `wind` value `withWind` attaches. -/
theorem withWind_val (windFetch : ℚ → ℚ → Option JVal) (p : Point) :
    (withWind windFetch p).wind =
      some (match windFetch p.lat p.lon with
            | none => .null
            | some data => (objGetJ data "current").getD .null) := by
  unfold withWind
  cases h : windFetch p.lat p.lon <;> simp

/-- `withAir` only attaches the `air` field. -/
theorem withAir_base (airFetch : ℚ → ℚ → Option JVal) (p : Point) :
    (withAir airFetch p).id = p.id ∧ (withAir airFetch p).ts = p.ts ∧
    (withAir airFetch p).lat = p.lat ∧ (withAir airFetch p).lon = p.lon ∧
    (withAir airFetch p).alt = p.alt ∧ (withAir airFetch p).wind = p.wind := by
  cases h : airFetch p.lat p.lon with
  | none => simp [withAir, h]
  | some d =>
    unfold withAir
    rw [h]
    dsimp only
    split
    · split <;> simp
    · simp

/-- A failed air lookup attaches `air = null`. -/
theorem withAir_fail (airFetch : ℚ → ℚ → Option JVal) (p : Point)
    (h : airFetch p.lat p.lon = none) : (withAir airFetch p).air = some .null := by
  simp [withAir, h]

/-- C8: `enrich` returns a list of the same length and order, each output
point being exactly the per-point enrichment of the corresponding input
point (so a lookup failure for one point cannot remove or alter another);
the per-point step preserves id, timestamp, latitude, longitude and
altitude, attaches `wind = null` when the wind lookup fails and the looked
up `current` payload when it succeeds, and attaches `air = null` when the
air lookup fails. (Input points are immutable values in the model; the
step builds a new record by functional update.) -/
theorem enrich_isolation (windFetch airFetch : ℚ → ℚ → Option JVal)
    (pts : List Point) :
    (enrich windFetch airFetch pts).length = pts.length ∧
    (∀ i (h1 : i < (enrich windFetch airFetch pts).length) (h2 : i < pts.length),
      (enrich windFetch airFetch pts).get ⟨i, h1⟩ =
        enrichStep windFetch airFetch (pts.get ⟨i, h2⟩)) ∧
    (∀ p : Point,
      (enrichStep windFetch airFetch p).id = p.id ∧
      (enrichStep windFetch airFetch p).ts = p.ts ∧
      (enrichStep windFetch airFetch p).lat = p.lat ∧
      (enrichStep windFetch airFetch p).lon = p.lon ∧
      (enrichStep windFetch airFetch p).alt = p.alt ∧
      (windFetch p.lat p.lon = none →
        (enrichStep windFetch airFetch p).wind = some .null) ∧
      (∀ d, windFetch p.lat p.lon = some d →
        (enrichStep windFetch airFetch p).wind =
          some ((objGetJ d "current").getD .null)) ∧
      (airFetch p.lat p.lon = none →
        (enrichStep windFetch airFetch p).air = some .null)) := by
  refine ⟨?_, ?_, ?_⟩
  · rw [enrich_eq_map]
    exact List.length_map _ _
  · intro i h1 h2
    simp [enrich_eq_map]
  · intro p
    have hW := withWind_base windFetch p
    have hA := withAir_base airFetch (withWind windFetch p)
    have hlat : (withWind windFetch p).lat = p.lat := hW.2.2.1
    have hlon : (withWind windFetch p).lon = p.lon := hW.2.2.2.1
    refine ⟨?_, ?_, ?_, ?_, ?_, ?_, ?_, ?_⟩
    · exact hA.1.trans hW.1
    · exact hA.2.1.trans hW.2.1
    · exact hA.2.2.1.trans hlat
    · exact hA.2.2.2.1.trans hlon
    · exact hA.2.2.2.2.1.trans hW.2.2.2.2.1
    · intro hfail
      have := (withWind_val windFetch p).trans (by rw [hfail])
      exact hA.2.2.2.2.2.trans this
    · intro d hd
      have := (withWind_val windFetch p).trans (by rw [hd])
      exact hA.2.2.2.2.2.trans this
    · intro hfail
      exact withAir_fail airFetch (withWind windFetch p) (by rw [hlat, hlon, hfail])

/-- Witness for C8: a singleton batch with both services failing is
returned whole, its point carrying `wind = null`. -/
theorem enrich_isolation_witness :
    (enrich (fun _ _ => none) (fun _ _ => none)
        [{ id := "a", ts := 1, lat := 2, lon := 3, alt := none }]).length = 1 ∧
    (enrichStep (fun _ _ => none) (fun _ _ => none)
        { id := "a", ts := 1, lat := 2, lon := 3, alt := none }).wind = some .null := by
  have h := enrich_isolation (fun _ _ => none) (fun _ _ => none)
    [{ id := "a", ts := 1, lat := 2, lon := 3, alt := none }]
  exact ⟨h.1.trans rfl, (h.2.2 _).2.2.2.2.2.1 rfl⟩

/-- Closed form of the settled-results loop: starting from accumulator
`acc` at bucket index `i`, the loop adds one `bad` per rejected outcome,
one `ok` per fulfilled outcome, the per-bucket record counts, and appends
every fulfilled bucket's normalized points in order. -/
theorem fetchLoop_spec (coerce : JVal → Option ℚ) (jsonParse : String → Option JVal)
    (dateParse : JVal → Option ℚ) (now : ℚ) (results : List (Option JVal)) :
    ∀ (i : Nat) (acc : FetchAcc),
      fetchLoop coerce jsonParse dateParse now results i acc =
        { ok := acc.ok + results.countP (fun r => r.isSome),
          bad := acc.bad + results.countP (fun r => r.isNone),
          raw := acc.raw + ((results.enumFrom i).map (fun p =>
            match p.2 with
            | none => 0
            | some body => (bucketItems coerce jsonParse dateParse now p.1 body).1)).sum,
          pts := acc.pts ++ ((results.enumFrom i).map
            (bucketOutcome coerce jsonParse dateParse now)).flatten } := by
  induction results with
  | nil => intro i acc; simp [fetchLoop]
  | cons r rest ih =>
    intro i acc
    cases r with
    | none =>
      rw [fetchLoop, ih]
      simp [List.countP_cons, bucketOutcome, Nat.add_assoc, Nat.add_comm 1]
    | some body =>
      rw [fetchLoop, ih]
      simp [List.countP_cons, bucketOutcome, Nat.add_assoc, Nat.add_comm 1]

/-- C6: `fetchWindborne24h` processes every settled bucket outcome — a
failed bucket only increments the failure counter and contributes no
points, so the result is always the deduplicated concatenation of the
normalized points of all fulfilled buckets, and in debug mode
`files_failed` is exactly the number of failed buckets (`files_ok` the
number of fulfilled ones). -/
theorem fetch_partial_failure (coerce : JVal → Option ℚ)
    (jsonParse : String → Option JVal) (dateParse : JVal → Option ℚ) (now : ℚ)
    (results : List (Option JVal)) :
    (fetchWindborne24h coerce jsonParse dateParse now results true).2 =
      dedup (((results.enumFrom 0).map
        (bucketOutcome coerce jsonParse dateParse now)).flatten) ∧
    (fetchWindborne24h coerce jsonParse dateParse now results false).2 =
      dedup (((results.enumFrom 0).map
        (bucketOutcome coerce jsonParse dateParse now)).flatten) ∧
    (fetchWindborne24h coerce jsonParse dateParse now results true).1 =
      some { files_ok := results.countP (fun r => r.isSome),
             files_failed := results.countP (fun r => r.isNone),
             raw_records := ((results.enumFrom 0).map (fun p =>
               match p.2 with
               | none => 0
               | some body => (bucketItems coerce jsonParse dateParse now p.1 body).1)).sum,
             normalized := (dedup (((results.enumFrom 0).map
               (bucketOutcome coerce jsonParse dateParse now)).flatten)).length,
             unique_points := (dedup (((results.enumFrom 0).map
               (bucketOutcome coerce jsonParse dateParse now)).flatten)).length } ∧
    (fetchWindborne24h coerce jsonParse dateParse now results false).1 = none := by
  unfold fetchWindborne24h
  rw [fetchLoop_spec coerce jsonParse dateParse now results 0 ⟨0, 0, 0, []⟩]
  simp

/-- C3 (counterexample): the claim fails on the code — a record with a
`null`-valued field flattens to a mapping that does not contain that
field's path: the `obj == null` early return drops `null` leaves instead
of recording them. -/
theorem flatten_drops_null_leaf :
    flatten (.obj [("a", .null)]) "" [] = [] ∧
    getKey (flatten (.obj [("a", .null)]) "" []) "a" = none := ⟨rfl, rfl⟩

/-- `setKey` records the written key. -/
theorem hasKey_setKey_self (out : List (String × JVal)) (k : String) (v : JVal) :
    hasKey (setKey out k v) k = true := by
  unfold setKey hasKey
  split
  · rename_i h
    rcases List.any_eq_true.mp h with ⟨p, hp, he⟩
    refine List.any_eq_true.mpr ⟨(k, v), ?_, by simp⟩
    refine List.mem_map.mpr ⟨p, hp, ?_⟩
    simp [of_decide_eq_true he]
  · refine List.any_eq_true.mpr ⟨(k, v), by simp, by simp⟩

/-- `setKey` preserves every present key. -/
theorem hasKey_setKey_mono (out : List (String × JVal)) (k k0 : String) (v : JVal)
    (h : hasKey out k0 = true) : hasKey (setKey out k v) k0 = true := by
  unfold setKey
  rcases List.any_eq_true.mp h with ⟨p, hp, he⟩
  split
  · refine List.any_eq_true.mpr ⟨if p.1 = k then (k, v) else p, ?_, ?_⟩
    · exact List.mem_map.mpr ⟨p, hp, rfl⟩
    · split
      · rename_i hpk
        simp only [beq_iff_eq] at he ⊢
        rw [← hpk]
        exact he
      · exact he
  · exact List.any_eq_true.mpr ⟨p, List.mem_append_left _ hp, he⟩

/-- The array-walk loop preserves present keys, given that every element's
flatten does. -/
theorem hasKey_flattenArr_mono_of (xs : List JVal)
    (H : ∀ x ∈ xs, ∀ pfx out k, hasKey out k = true →
      hasKey (flatten x pfx out) k = true) :
    ∀ (i : Nat) (pfx : String) (out : List (String × JVal)) (k : String),
      hasKey out k = true → hasKey (flattenArr xs i pfx out) k = true := by
  induction xs with
  | nil => intro i pfx out k h; exact h
  | cons x rest ih =>
    intro i pfx out k h
    rw [flattenArr]
    exact ih (fun y hy => H y (List.mem_cons_of_mem x hy)) (i + 1) pfx _ k
      (H x (List.mem_cons_self x rest) _ out k h)

/-- The object-walk loop preserves present keys, given that every field
value's flatten does. -/
theorem hasKey_flattenObj_mono_of (kvs : List (String × JVal))
    (H : ∀ p ∈ kvs, ∀ pfx out k, hasKey out k = true →
      hasKey (flatten p.2 pfx out) k = true) :
    ∀ (pfx : String) (out : List (String × JVal)) (k : String),
      hasKey out k = true → hasKey (flattenObj kvs pfx out) k = true := by
  induction kvs with
  | nil => intro pfx out k h; exact h
  | cons p rest ih =>
    intro pfx out k h
    rw [flattenObj]
    exact ih (fun q hq => H q (List.mem_cons_of_mem p hq)) pfx _ k
      (H p (List.mem_cons_self p rest) _ out k h)

/-- `flatten` never removes a key already present in the accumulator. -/
theorem hasKey_flatten_mono (v : JVal) :
    ∀ (pfx : String) (out : List (String × JVal)) (k : String),
      hasKey out k = true → hasKey (flatten v pfx out) k = true := by
  have key : ∀ (n : Nat) (v : JVal), sizeOf v ≤ n →
      ∀ pfx out k, hasKey out k = true → hasKey (flatten v pfx out) k = true := by
    intro n
    induction n with
    | zero => intro v hv; cases v <;> simp at hv
    | succ n ih =>
      intro v hv pfx out k h
      cases v with
      | null => exact h
      | bool b => exact hasKey_setKey_mono out pfx k _ h
      | num q => exact hasKey_setKey_mono out pfx k _ h
      | str s => exact hasKey_setKey_mono out pfx k _ h
      | arr xs =>
        rw [flatten]
        refine hasKey_flattenArr_mono_of xs (fun x hx => ih x ?_) 0 pfx out k h
        have h1 : sizeOf x < sizeOf xs := List.sizeOf_lt_of_mem hx
        have h2 : sizeOf (JVal.arr xs) = 1 + sizeOf xs := by simp
        omega
      | obj kvs =>
        rw [flatten]
        refine hasKey_flattenObj_mono_of kvs (fun p hp => ih p.2 ?_) pfx out k h
        have h1 : sizeOf p < sizeOf kvs := List.sizeOf_lt_of_mem hp
        have h2 : sizeOf (JVal.obj kvs) = 1 + sizeOf kvs := by simp
        have h3 : sizeOf p.2 < sizeOf p := by
          cases p with
          | mk a b => simp
        omega
  exact key (sizeOf v) v le_rfl

/-- If some element of `xs` flattens the key `K` into any accumulator, the
array walk starting at index `i` records `K`. -/
theorem hasKey_flattenArr_elem (xs : List JVal) :
    ∀ (i j : Nat) (x : JVal) (pfx K : String), xs.get? j = some x →
      (∀ out, hasKey (flatten x (joinKey pfx (natStr (i + j))) out) K = true) →
      ∀ out, hasKey (flattenArr xs i pfx out) K = true := by
  induction xs with
  | nil =>
    intro i j x pfx K hj
    simp at hj
  | cons y rest ih =>
    intro i j x pfx K hj hx out
    cases j with
    | zero =>
      have hxy : y = x := by simpa using hj
      subst hxy
      simp only [Nat.add_zero] at hx
      rw [flattenArr]
      exact hasKey_flattenArr_mono_of rest
        (fun z _ => hasKey_flatten_mono z) (i + 1) pfx _ K (hx out)
    | succ j2 =>
      rw [flattenArr]
      have harith : i + (j2 + 1) = (i + 1) + j2 := by omega
      rw [harith] at hx
      exact ih (i + 1) j2 x pfx K (by simpa using hj) hx _

/-- If some field of `kvs` flattens the key `K` into any accumulator, the
object walk records `K`. -/
theorem hasKey_flattenObj_elem (kvs : List (String × JVal)) :
    ∀ (p : String × JVal) (pfx K : String), p ∈ kvs →
      (∀ out, hasKey (flatten p.2 (joinKey pfx p.1) out) K = true) →
      ∀ out, hasKey (flattenObj kvs pfx out) K = true := by
  induction kvs with
  | nil =>
    intro p pfx K hp
    simp at hp
  | cons q rest ih =>
    intro p pfx K hp hx out
    obtain ⟨qk, qv⟩ := q
    rw [flattenObj]
    rcases List.mem_cons.mp hp with heq | hmem
    · subst heq
      exact hasKey_flattenObj_mono_of rest
        (fun z _ => hasKey_flatten_mono z.2) pfx _ K (hx out)
    · exact ih p pfx K hmem hx _

/-- C3 (amended): `flatten` records every non-`null` scalar leaf of the
input at its accumulated dotted/indexed path (a root scalar under the
empty-prefix key); `null` leaves, contrary to the original claim, are
omitted (see `flatten_drops_null_leaf`). -/
theorem flatten_records_leaves {v : JVal} {segs : List String} {s : JVal}
    (h : LeafAt v segs s) :
    ∀ (pfx : String) (out : List (String × JVal)),
      hasKey (flatten v pfx out) (keyOf pfx segs) = true := by
  induction h with
  | scalarBool b => intro pfx out; exact hasKey_setKey_self out pfx _
  | scalarNum q => intro pfx out; exact hasKey_setKey_self out pfx _
  | scalarStr s => intro pfx out; exact hasKey_setKey_self out pfx _
  | inArr hj hleaf ih =>
    rename_i xs i x segs2 s2
    intro pfx out
    rw [flatten]
    have hkey : keyOf pfx (natStr i :: segs2) = keyOf (joinKey pfx (natStr i)) segs2 := rfl
    rw [hkey]
    refine hasKey_flattenArr_elem xs 0 i x pfx _ hj (fun out2 => ?_) out
    have := ih (joinKey pfx (natStr i)) out2
    simpa using this
  | inObj hp hleaf ih =>
    rename_i kvs k x segs2 s2
    intro pfx out
    rw [flatten]
    have hkey : keyOf pfx (k :: segs2) = keyOf (joinKey pfx k) segs2 := rfl
    rw [hkey]
    exact hasKey_flattenObj_elem kvs (k, x) pfx _ hp
      (fun out2 => ih (joinKey pfx k) out2) out

/-- Witness for C3 (amended): the non-`null` field of `{a: 1}` is recorded
under the key `a`. -/
theorem flatten_records_leaves_witness :
    hasKey (flatten (.obj [("a", .num 1)]) "" []) "a" = true :=
  flatten_records_leaves (LeafAt.inObj (by simp) (LeafAt.scalarNum 1)) "" []

/-- The digit character of `d < 10` has code `48 + d`. -/
theorem digitCh_toNat {d : Nat} (h : d < 10) : (digitCh d).toNat = 48 + d := by
  interval_cases d <;> decide

/-- Every character `natChars` emits is a decimal digit. -/
theorem natChars_digits :
    ∀ (f n : Nat), ∀ c ∈ natChars f n, 48 ≤ c.toNat ∧ c.toNat ≤ 57 := by
  intro f
  induction f with
  | zero =>
    intro n c hc
    simp [natChars] at hc
  | succ f ih =>
    intro n c hc
    rw [natChars] at hc
    split at hc
    · rename_i hn
      simp at hc
      subst hc
      rw [digitCh_toNat hn]
      omega
    · rcases List.mem_append.mp hc with h1 | h2
      · exact ih _ c h1
      · simp at h2
        subst h2
        rw [digitCh_toNat (Nat.mod_lt _ (by norm_num))]
        omega

/-- Decimal value after appending one digit character. -/
theorem valChars_append (cs : List Char) (c : Char) :
    valChars (cs ++ [c]) = valChars cs * 10 + (c.toNat - 48) := by
  unfold valChars
  rw [List.foldl_append]
  rfl

/-- `valChars` retracts `natChars` when the fuel covers the number. -/
theorem valChars_natChars : ∀ (f n : Nat), n < 10 ^ f → valChars (natChars f n) = n := by
  intro f
  induction f with
  | zero =>
    intro n hn
    interval_cases n
    rfl
  | succ f ih =>
    intro n hn
    rw [natChars]
    split
    · rename_i h10
      show valChars [digitCh n] = n
      unfold valChars
      simp [digitCh_toNat h10]
    · rename_i h10
      push_neg at h10
      rw [valChars_append]
      have hdiv : n / 10 < 10 ^ f := by
        have h2 : n < 10 ^ f * 10 := by
          rw [← pow_succ]
          exact hn
        exact (Nat.div_lt_iff_lt_mul (by norm_num)).mpr h2
      rw [ih (n / 10) hdiv, digitCh_toNat (Nat.mod_lt _ (by norm_num))]
      omega

/-- Every natural is below `10 ^ (n + 1)` (fuel sufficiency). -/
theorem lt_ten_pow_succ (n : Nat) : n < 10 ^ (n + 1) := by
  calc n < 2 ^ n := Nat.lt_two_pow n
  _ ≤ 10 ^ n := Nat.pow_le_pow_left (by norm_num) n
  _ ≤ 10 ^ (n + 1) := Nat.pow_le_pow_right (by norm_num) (by omega)

/-- `natStr` is injective. -/
theorem natStr_inj {a b : Nat} (h : natStr a = natStr b) : a = b := by
  have hd : natChars (a + 1) a = natChars (b + 1) b := congrArg String.data h
  have h1 := valChars_natChars (a + 1) a (lt_ten_pow_succ a)
  have h2 := valChars_natChars (b + 1) b (lt_ten_pow_succ b)
  rw [← h1, hd, h2]

/-- Characters of `intChars`: a minus sign or a digit. -/
theorem intChars_chars :
    ∀ (i : Int), ∀ c ∈ intChars i, c.toNat = 45 ∨ (48 ≤ c.toNat ∧ c.toNat ≤ 57) := by
  intro i c hc
  cases i with
  | ofNat n => exact Or.inr (natChars_digits _ _ c hc)
  | negSucc n =>
    rw [intChars] at hc
    rcases List.mem_cons.mp hc with h1 | h2
    · subst h1
      left
      decide
    · exact Or.inr (natChars_digits _ _ c h2)

/-- `intStr` is injective. -/
theorem intStr_inj {i j : Int} (h : intStr i = intStr j) : i = j := by
  have hd : intChars i = intChars j := congrArg String.data h
  cases i with
  | ofNat a =>
    cases j with
    | ofNat b =>
      have hs : natStr a = natStr b := congrArg String.mk hd
      exact congrArg Int.ofNat (natStr_inj hs)
    | negSucc b =>
      exfalso
      rw [intChars, intChars] at hd
      have hmem : '-' ∈ natChars (a + 1) a := by
        rw [hd]
        exact List.mem_cons_self _ _
      have hdig := natChars_digits (a + 1) a '-' hmem
      exact absurd hdig (by decide)
  | negSucc a =>
    cases j with
    | ofNat b =>
      exfalso
      rw [intChars, intChars] at hd
      have hmem : '-' ∈ natChars (b + 1) b := by
        rw [← hd]
        exact List.mem_cons_self _ _
      have hdig := natChars_digits (b + 1) b '-' hmem
      exact absurd hdig (by decide)
    | negSucc b =>
      rw [intChars, intChars] at hd
      injection hd with hx hy
      have h1 := valChars_natChars (a + 2) (a + 1) (lt_ten_pow_succ (a + 1))
      have h2 := valChars_natChars (b + 2) (b + 1) (lt_ten_pow_succ (b + 1))
      have hab : a + 1 = b + 1 := by rw [← h1, hy, h2]
      have : a = b := by omega
      rw [this]

/-- Characters of `numToStr`: minus, slash, or a digit. -/
theorem numToStr_chars :
    ∀ (q : ℚ), ∀ c ∈ (numToStr q).data,
      c.toNat = 45 ∨ c.toNat = 47 ∨ (48 ≤ c.toNat ∧ c.toNat ≤ 57) := by
  intro q c hc
  unfold numToStr at hc
  split at hc
  · rcases intChars_chars q.num c hc with h | h
    · exact Or.inl h
    · exact Or.inr (Or.inr h)
  · rw [String.data_append, String.data_append] at hc
    rcases List.mem_append.mp hc with h1 | h2
    · rcases List.mem_append.mp h1 with h3 | h4
      · rcases intChars_chars q.num c h3 with h | h
        · exact Or.inl h
        · exact Or.inr (Or.inr h)
      · rw [show ("/" : String).data = ['/'] from rfl] at h4
        simp at h4
        subst h4
        exact Or.inr (Or.inl (by decide))
    · exact Or.inr (Or.inr (natChars_digits _ _ c h2))

/-- `numToStr` never emits a colon. -/
theorem numToStr_no_colon (q : ℚ) : ':' ∉ (numToStr q).data := by
  intro h
  rcases numToStr_chars q ':' h with hh | hh | hh
  · exact absurd hh (by decide)
  · exact absurd hh (by decide)
  · exact absurd hh (by decide)

/-- `intChars` never emits a slash. -/
theorem intChars_no_slash (i : Int) : '/' ∉ intChars i := by
  intro h
  rcases intChars_chars i _ h with hh | hh
  · exact absurd hh (by decide)
  · exact absurd hh (by decide)

/-- Splitting a separated concatenation at a separator absent from the
tails. -/
theorem append_sep_right_inj (sep : Char) :
    ∀ (a1 a2 b1 b2 : List Char), sep ∉ b1 → sep ∉ b2 →
      a1 ++ sep :: b1 = a2 ++ sep :: b2 → a1 = a2 ∧ b1 = b2 := by
  intro a1
  induction a1 with
  | nil =>
    intro a2 b1 b2 h1 h2 he
    cases a2 with
    | nil => simpa using he
    | cons y a2 =>
      exfalso
      rw [List.nil_append, List.cons_append] at he
      injection he with hx hy
      exact h1 (hy ▸ List.mem_append_right a2 (List.mem_cons_self sep b2))
  | cons x a1 ih =>
    intro a2 b1 b2 h1 h2 he
    cases a2 with
    | nil =>
      exfalso
      rw [List.cons_append, List.nil_append] at he
      injection he with hx hy
      exact h2 (hy.symm ▸ List.mem_append_right a1 (List.mem_cons_self sep b1))
    | cons y a2 =>
      rw [List.cons_append, List.cons_append] at he
      injection he with hx hy
      obtain ⟨ha, hb⟩ := ih a2 b1 b2 h1 h2 hy
      exact ⟨by rw [hx, ha], hb⟩

/-- Splitting a separated concatenation at a separator absent from the
heads. -/
theorem append_sep_left_inj (sep : Char) :
    ∀ (a1 a2 b1 b2 : List Char), sep ∉ a1 → sep ∉ a2 →
      a1 ++ sep :: b1 = a2 ++ sep :: b2 → a1 = a2 ∧ b1 = b2 := by
  intro a1
  induction a1 with
  | nil =>
    intro a2 b1 b2 h1 h2 he
    cases a2 with
    | nil => simpa using he
    | cons y a2 =>
      exfalso
      rw [List.nil_append, List.cons_append] at he
      injection he with hx hy
      exact h2 (hx ▸ List.mem_cons_self y a2)
  | cons x a1 ih =>
    intro a2 b1 b2 h1 h2 he
    cases a2 with
    | nil =>
      exfalso
      rw [List.cons_append, List.nil_append] at he
      injection he with hx hy
      exact h1 (hx.symm ▸ List.mem_cons_self x a1)
    | cons y a2 =>
      rw [List.cons_append, List.cons_append] at he
      injection he with hx hy
      obtain ⟨ha, hb⟩ := ih a2 b1 b2 (fun hm => h1 (List.mem_cons_of_mem x hm))
        (fun hm => h2 (List.mem_cons_of_mem y hm)) hy
      exact ⟨by rw [hx, ha], hb⟩

/-- `numToStr` is injective (the slash cleanly separates numerator and
denominator, and an integer rendering never contains a slash). -/
theorem numToStr_inj {q1 q2 : ℚ} (h : numToStr q1 = numToStr q2) : q1 = q2 := by
  unfold numToStr at h
  by_cases h1 : q1.den = 1 <;> by_cases h2 : q2.den = 1
  · rw [if_pos h1, if_pos h2] at h
    exact Rat.ext (intStr_inj h) (h1.trans h2.symm)
  · rw [if_pos h1, if_neg h2] at h
    exfalso
    have hd := congrArg String.data h
    rw [String.data_append, String.data_append,
      show ("/" : String).data = ['/'] from rfl] at hd
    have hmem : '/' ∈ (intStr q1.num).data := by
      rw [hd]
      exact List.mem_append_left _ (List.mem_append_right _ (by simp))
    exact intChars_no_slash q1.num hmem
  · rw [if_neg h1, if_pos h2] at h
    exfalso
    have hd := congrArg String.data h
    rw [String.data_append, String.data_append,
      show ("/" : String).data = ['/'] from rfl] at hd
    have hmem : '/' ∈ (intStr q2.num).data := by
      rw [← hd]
      exact List.mem_append_left _ (List.mem_append_right _ (by simp))
    exact intChars_no_slash q2.num hmem
  · rw [if_neg h1, if_neg h2] at h
    have hd := congrArg String.data h
    rw [String.data_append, String.data_append, String.data_append,
      String.data_append, show ("/" : String).data = ['/'] from rfl,
      List.append_assoc, List.append_assoc, List.singleton_append,
      List.singleton_append] at hd
    obtain ⟨ha, hb⟩ := append_sep_left_inj '/' _ _ _ _ (intChars_no_slash q1.num)
      (intChars_no_slash q2.num) hd
    exact Rat.ext (intStr_inj (String.ext ha)) (natStr_inj (String.ext hb))

/-- The dedup key `` `${id}:${ts}` `` determines id and timestamp: the
number rendering is colon-free, so the last colon separates the two. -/
theorem dedupKey_inj {p q : Point} (h : dedupKey p = dedupKey q) :
    p.id = q.id ∧ p.ts = q.ts := by
  unfold dedupKey at h
  have hd := congrArg String.data h
  rw [String.data_append, String.data_append, String.data_append,
    String.data_append, show (":" : String).data = [':'] from rfl,
    List.append_assoc, List.append_assoc, List.singleton_append,
    List.singleton_append] at hd
  obtain ⟨ha, hb⟩ := append_sep_right_inj ':' _ _ _ _ (numToStr_no_colon p.ts)
    (numToStr_no_colon q.ts) hd
  exact ⟨String.ext ha, numToStr_inj (String.ext hb)⟩

/-- Every survivor of the seen-set pass has a key outside the seen set. -/
theorem dedupCore_fresh : ∀ (l : List Point) (seen : List String) (p : Point),
    p ∈ dedupCore l seen → seen.contains (dedupKey p) = false := by
  intro l
  induction l with
  | nil =>
    intro seen p hp
    simp [dedupCore] at hp
  | cons x xs ih =>
    intro seen p hp
    rw [dedupCore] at hp
    split at hp
    · exact ih seen p hp
    · rename_i hseen
      rcases List.mem_cons.mp hp with he | hm
      · subst he
        cases hx : seen.contains (dedupKey p)
        · rfl
        · exact absurd hx hseen
      · have hfr := ih _ p hm
        simp only [List.contains_cons, Bool.or_eq_false_iff] at hfr
        exact hfr.2

/-- Survivors of the seen-set pass have pairwise distinct keys. -/
theorem dedupCore_pairwise : ∀ (l : List Point) (seen : List String),
    (dedupCore l seen).Pairwise (fun p q => dedupKey p ≠ dedupKey q) := by
  intro l
  induction l with
  | nil =>
    intro seen
    simp [dedupCore]
  | cons x xs ih =>
    intro seen
    rw [dedupCore]
    split
    · exact ih seen
    · refine List.Pairwise.cons ?_ (ih _)
      intro q hq hkey
      have hfr := dedupCore_fresh xs _ q hq
      rw [← hkey] at hfr
      simp [List.contains_cons] at hfr

/-- Membership in the seen-set pass: exactly the first occurrence of each
key not already seen survives. -/
theorem dedupCore_mem_iff : ∀ (l : List Point) (seen : List String) (p : Point),
    p ∈ dedupCore l seen ↔
      (seen.contains (dedupKey p) = false ∧
        l.find? (fun q => dedupKey q == dedupKey p) = some p) := by
  intro l
  induction l with
  | nil =>
    intro seen p
    simp [dedupCore]
  | cons x xs ih =>
    intro seen p
    rw [dedupCore]
    by_cases hk : dedupKey x = dedupKey p
    · rw [List.find?_cons_of_pos _ (by simp [hk])]
      split
      · rename_i hseen
        rw [ih]
        constructor
        · rintro ⟨hfresh, hfind⟩
          exfalso
          rw [← hk, hseen] at hfresh
          exact Bool.noConfusion hfresh
        · rintro ⟨hfresh, hfind⟩
          exfalso
          injection hfind with hxp
          rw [← hk, hseen] at hfresh
          exact Bool.noConfusion hfresh
      · rename_i hseen
        constructor
        · intro hmem
          rcases List.mem_cons.mp hmem with he | hm
          · subst he
            refine ⟨?_, rfl⟩
            cases hxx : seen.contains (dedupKey p)
            · rfl
            · exact absurd hxx hseen
          · exfalso
            have hfr := dedupCore_fresh xs _ p hm
            simp [List.contains_cons, ← hk] at hfr
        · rintro ⟨hfresh, hfind⟩
          injection hfind with hxp
          rw [← hxp]
          exact List.mem_cons_self _ _
    · rw [List.find?_cons_of_neg _ (by simp [hk])]
      split
      · rename_i hseen
        rw [ih]
      · rename_i hseen
        constructor
        · intro hmem
          rcases List.mem_cons.mp hmem with he | hm
          · exact absurd (by rw [he]) hk
          · have hrec := (ih (dedupKey x :: seen) p).mp hm
            refine ⟨?_, hrec.2⟩
            have h1 := hrec.1
            simp only [List.contains_cons, Bool.or_eq_false_iff] at h1
            exact h1.2
        · rintro ⟨hfresh, hfind⟩
          refine List.mem_cons_of_mem x ((ih _ p).mpr ⟨?_, hfind⟩)
          have hbe : (dedupKey p == dedupKey x) = false := by
            cases hb : dedupKey p == dedupKey x
            · rfl
            · exact absurd (beq_iff_eq.mp hb).symm hk
          simp only [List.contains_cons, Bool.or_eq_false_iff]
          exact ⟨hbe, hfresh⟩

/-- `find?` only depends on the predicate pointwise. -/
theorem find?_ext {α : Type} {p q : α → Bool} (h : ∀ a, p a = q a) :
    ∀ l : List α, l.find? p = l.find? q := by
  intro l
  induction l with
  | nil => rfl
  | cons x xs ih =>
    simp only [List.find?, h x, ih]

/-- C4: `dedup` (a) leaves no two points sharing both id and timestamp,
(b) keeps, for each (id, timestamp) key, exactly the first occurrence from
the input, (c) sorts non-decreasingly by timestamp, and (d) keeps
equal-timestamp points in their post-dedup input order (stability of the
final sort). -/
theorem dedup_correct (l : List Point) :
    ((dedup l).Pairwise (fun p q => ¬(p.id = q.id ∧ p.ts = q.ts))) ∧
    (∀ p, p ∈ dedup l ↔ l.find? (fun q => q.id == p.id && q.ts == p.ts) = some p) ∧
    ((dedup l).Pairwise (fun p q => p.ts ≤ q.ts)) ∧
    (∀ t : ℚ, (dedup l).filter (fun p => p.ts == t) =
      (dedupCore l []).filter (fun p => p.ts == t)) := by
  have htrans : ∀ a b c : Point, decide (a.ts ≤ b.ts) = true →
      decide (b.ts ≤ c.ts) = true → decide (a.ts ≤ c.ts) = true := by
    intro a b c hab hbc
    simp only [decide_eq_true_eq] at hab hbc ⊢
    exact le_trans hab hbc
  have htotal : ∀ a b : Point,
      (decide (a.ts ≤ b.ts) || decide (b.ts ≤ a.ts)) = true := by
    intro a b
    rcases le_total a.ts b.ts with h | h <;> simp [h]
  refine ⟨?_, ?_, ?_, ?_⟩
  · have hperm := List.mergeSort_perm (dedupCore l []) (fun a b => decide (a.ts ≤ b.ts))
    have hpw := dedupCore_pairwise l []
    have hpw2 : (dedupCore l []).Pairwise (fun p q => ¬(p.id = q.id ∧ p.ts = q.ts)) := by
      refine hpw.imp ?_
      intro a b h hc
      exact h (by unfold dedupKey; rw [hc.1, hc.2])
    exact (hperm.pairwise_iff (fun {a b} h hc => h ⟨hc.1.symm, hc.2.symm⟩)).mpr hpw2
  · intro p
    have hpred : ∀ q : Point,
        (dedupKey q == dedupKey p) = (q.id == p.id && q.ts == p.ts) := by
      intro q
      cases hb : dedupKey q == dedupKey p
      · cases hc : q.id == p.id && q.ts == p.ts
        · rfl
        · exfalso
          simp only [Bool.and_eq_true, beq_iff_eq] at hc
          have hkeys : dedupKey q = dedupKey p := by
            unfold dedupKey
            rw [hc.1, hc.2]
          have hb2 : (dedupKey q == dedupKey p) = true := beq_iff_eq.mpr hkeys
          rw [hb] at hb2
          exact Bool.noConfusion hb2
      · have hkeys := beq_iff_eq.mp hb
        obtain ⟨h1, h2⟩ := dedupKey_inj hkeys
        simp [h1, h2]
    unfold dedup
    rw [List.mem_mergeSort, dedupCore_mem_iff l [] p,
      find?_ext hpred l]
    simp [List.contains]
  · have hs := List.sorted_mergeSort htrans htotal (dedupCore l [])
    refine hs.imp ?_
    intro a b h
    simpa using h
  · intro t
    have hpwf : ((dedupCore l []).filter (fun p => p.ts == t)).Pairwise
        (fun a b => decide (a.ts ≤ b.ts) = true) := by
      apply List.pairwise_of_forall_mem_list
      intro a ha b hb
      have hta := (List.mem_filter.mp ha).2
      have htb := (List.mem_filter.mp hb).2
      simp only [beq_iff_eq] at hta htb
      simp [hta, htb]
    have hsub1 : List.Sublist ((dedupCore l []).filter (fun p => p.ts == t))
        (dedupCore l []) :=
      List.filter_sublist _
    have hsub2 := List.sublist_mergeSort htrans htotal hpwf hsub1
    have hsub3 := hsub2.filter (fun p => p.ts == t)
    have hid : List.filter (fun p => p.ts == t)
          (List.filter (fun p => p.ts == t) (dedupCore l [])) =
        List.filter (fun p => p.ts == t) (dedupCore l []) :=
      List.filter_eq_self.mpr (fun a ha => (List.mem_filter.mp ha).2)
    rw [hid] at hsub3
    have hperm := (List.mergeSort_perm (dedupCore l [])
      (fun a b => decide (a.ts ≤ b.ts))).filter (fun p => p.ts == t)
    exact (hsub3.eq_of_length hperm.length_eq.symm).symm
